import Mathlib

/-!
Verification of the algorithmic core of the TSP visualization
(`src/app/page.tsx`, class `TSPVisualizer`).

The embedding has two parts.

The tour builder `findMinRoute` (source lines 377-432) and the animator's
cumulative-cost loop (source lines 367-372) are embedded over exact rationals:
a JS number that can be `Infinity` is modelled by `EDist ℚ`.  JS array access
`arr[i]`, which yields `undefined` out of bounds, is modelled by `Option`;
a thrown `TypeError` (indexing into `undefined`) and a non-terminating
`while` loop are both modelled by the whole call returning `none`.

The point sampler `generateRandomGraph` / `isValidNodePosition`
(source lines 103-166) and the matrix builder `calculateDistanceMatrix`
(source lines 176-200) use `Math.sqrt`, so they are embedded over the reals,
with the stream of `Math.random()` results passed in as a function `ℕ → ℝ`.
-/

namespace TSP

/-- A JS number that is either a finite value or `Infinity`
(`Number.POSITIVE_INFINITY`).  Used with `α = ℚ` for the tour builder and
with `α = ℝ` for the distance matrix. -/
inductive EDist (α : Type) where
  | val (q : α)
  | inf
deriving DecidableEq

/-- The JS `<` comparison on distances (source line 392:
`this.distanceMatrix[currentCity][j] < minDistance`).
`Infinity < Infinity` is `false` in JS, as here. -/
def EDist.ltb : EDist ℚ → EDist ℚ → Bool
  | .val a, .val b => decide (a < b)
  | .val _, .inf => true
  | .inf, _ => false

/-- JS `+` on distances (source lines 408 and 424: `totalCost += ...`);
adding `Infinity` gives `Infinity`. -/
def EDist.add : EDist ℚ → EDist ℚ → EDist ℚ
  | .val a, .val b => .val (a + b)
  | _, _ => .inf

/-- Left-to-right summation of a list of costs starting from `0`, exactly the
shape in which the source accumulates `totalCost` and `costSoFar`. -/
def EDist.sumList (l : List (EDist ℚ)) : EDist ℚ :=
  l.foldl EDist.add (EDist.val 0)

/-- One recorded construction step (the object pushed on source lines 400-405
and 417-422). -/
structure TourStep where
  currentCity : ℤ
  nextCity : ℤ
  currentPath : List ℤ
  costAdded : EDist ℚ
deriving DecidableEq

instance : Inhabited TourStep := ⟨⟨0, 0, [], EDist.val 0⟩⟩

/-- The value returned by `findMinRoute` (source lines 427-431). -/
structure TourResult where
  totalCost : EDist ℚ
  finalPath : List ℤ
  steps : List TourStep
deriving DecidableEq

/-- JS array access `M[i]` with an integer index: out of range (including
negative) yields `undefined`, modelled as `none`. -/
def rowGet? (M : List (List (EDist ℚ))) (i : ℤ) : Option (List (EDist ℚ)) :=
  if i < 0 then none else M.get? i.toNat

/-- JS array access `row[j]` with an integer index, as `rowGet?`. -/
def elemGet? (row : List (EDist ℚ)) (j : ℤ) : Option (EDist ℚ) :=
  if j < 0 then none else row.get? j.toNat

/-- Double indexing `M[i][j]` with natural indices (used to state matrix
well-formedness). -/
def entry? {α : Type} (M : List (List α)) (i j : ℕ) : Option α :=
  (M.get? i).bind (·.get? j)

/-- The inner scan of `findMinRoute` (source lines 387-396): starting from
`minDistance = Infinity`, `nextCity = -1`, scan `j = 0, ..., n-1` in order and
take the new entry whenever it is strictly below the current minimum.
A visited `j` is skipped; an `undefined` entry compares `false` in JS and so
also leaves the accumulator unchanged. -/
def scanRow (row : List (EDist ℚ)) (n : ℕ) (visited : Finset ℤ) :
    EDist ℚ × ℤ :=
  (List.range n).foldl
    (fun acc j =>
      if (j : ℤ) ∈ visited then acc
      else
        match elemGet? row (j : ℤ) with
        | none => acc
        | some d => if d.ltb acc.1 then (d, (j : ℤ)) else acc)
    (EDist.inf, -1)

/-- The `while (visitedCities.size < n)` loop of `findMinRoute`
(source lines 386-413), with state `(visited, currentCity, path, steps,
totalCost)`.  The loop is driven by `fuel`; each productive pass adds one city,
so `fuel = n` suffices (proved below, never relied on by the definition).
`none` models a thrown `TypeError` (row access on an out-of-range
`currentCity`), a spinning loop (`nextCity === -1` leaves the state unchanged
forever), or exhausted fuel (shown unreachable for well-formed inputs). -/
def greedyLoop (M : List (List (EDist ℚ))) (n : ℕ) :
    ℕ → Finset ℤ → ℤ → List ℤ → List TourStep → EDist ℚ →
    Option (ℤ × List ℤ × List TourStep × EDist ℚ)
  | fuel, visited, cur, path, steps, totalCost =>
    if visited.card < n then
      match fuel, rowGet? M cur with
      | 0, _ => none
      | _ + 1, none => none
      | f + 1, some row =>
        let sc := scanRow row n visited
        if sc.2 = -1 then none
        else
          greedyLoop M n f (insert sc.2 visited) sc.2 (path ++ [sc.2])
            (steps ++ [⟨cur, sc.2, path, sc.1⟩]) (totalCost.add sc.1)
    else some (cur, path, steps, totalCost)

/-- `findMinRoute` (source lines 377-432).  `n` is `this.nodes.length`; the
matrix built by `calculateDistanceMatrix` is always `n × n`.  After the loop,
the closing step returns from the last city to the start (source lines
415-425).  `none` models a thrown `TypeError`; JS reaches the final access
`row[startNodeIndex]` with the row present and the element absent only for a
malformed (non-square) matrix, a case no claim touches. -/
def findMinRoute (M : List (List (EDist ℚ))) (n : ℕ) (startNodeIndex : ℤ) :
    Option TourResult :=
  match greedyLoop M n n {startNodeIndex} startNodeIndex [startNodeIndex] []
      (EDist.val 0) with
  | none => none
  | some (currentCity, path, steps, totalCost) =>
    match rowGet? M currentCity with
    | none => none
    | some row =>
      match elemGet? row startNodeIndex with
      | none => none
      | some returnCost =>
        some { totalCost := totalCost.add returnCost
               finalPath := path ++ [startNodeIndex]
               steps := steps ++ [⟨currentCity, startNodeIndex, path, returnCost⟩] }

/-- The cumulative-cost loop of `drawAnimationStep` (source lines 367-372):
`costSoFar = Σ steps[i].costAdded` for `i = 0, ..., currentStep`, recomputed
from the trace on every tick.  Reading `steps[i]` past the end would throw
(`undefined.costAdded`), modelled as `none`. -/
def drawAnimationStepCost (steps : List TourStep) (currentStep : ℕ) :
    Option (EDist ℚ) :=
  (List.range (currentStep + 1)).foldlM
    (fun acc i => (steps.get? i).map fun s => acc.add s.costAdded)
    (EDist.val 0)

example :
    findMinRoute [[EDist.inf, EDist.val 5], [EDist.val 5, EDist.inf]] 2 0 =
      some ⟨EDist.val 10, [0, 1, 0],
        [⟨0, 1, [0], EDist.val 5⟩, ⟨1, 0, [0, 1], EDist.val 5⟩]⟩ := by
  norm_num [findMinRoute, greedyLoop, scanRow, rowGet?, elemGet?,
    EDist.add, EDist.ltb, List.range_succ]

example : findMinRoute [[EDist.inf, EDist.val 5], [EDist.val 5, EDist.inf]] 2 5 =
    none := by decide

example : drawAnimationStepCost [⟨0, 1, [0], EDist.val 3⟩] 0 =
    some (EDist.val 3) := by
  norm_num [drawAnimationStepCost, EDist.add, List.range_succ]

/-- A node as pushed on source lines 161-165: coordinates and the 0-based
insertion index as id. -/
structure Node where
  x : ℝ
  y : ℝ
  id : ℕ

/-- The Euclidean distance between two nodes, written exactly as the source
computes it (`Math.sqrt(dx * dx + dy * dy)`, lines 186-189 and 105-107). -/
noncomputable def euclidDist (p q : Node) : ℝ :=
  Real.sqrt ((p.x - q.x) * (p.x - q.x) + (p.y - q.y) * (p.y - q.y))

/-- `isValidNodePosition` (source lines 103-113): a candidate `(x, y)` is
valid when no existing node is strictly closer than `minDistance`.  The
source's early-`return false` loop is this universal quantifier. -/
def isValidNodePosition (nodes : List Node) (x y minDistance : ℝ) : Prop :=
  ∀ node ∈ nodes,
    ¬ (Real.sqrt ((x - node.x) * (x - node.x) + (y - node.y) * (y - node.y))
        < minDistance)

open Classical in
/-- The inner `while (!validPosition && attempts < maxAttempts)` loop of
`generateRandomGraph` (source lines 143-159) for one node: each attempt
consumes two random draws (`x` then `y`, scaled into the padded
800 × 600 canvas), and the first valid position is kept together with the
next draw-stream index.  `none` is the attempt budget running out
(`maxAttempts = 100`), after which the source breaks out of node placement. -/
noncomputable def tryPlace (r : ℕ → ℝ) (nodes : List Node) :
    ℕ → ℕ → Option (ℝ × ℝ × ℕ)
  | _, 0 => none
  | k, attemptsLeft + 1 =>
    let x := r k * (800 - 2 * 50) + 50
    let y := r (k + 1) * (600 - 2 * 50) + 50
    if isValidNodePosition nodes x y 38 then some (x, y, k + 2)
    else tryPlace r nodes (k + 2) attemptsLeft

/-- The outer `for (let i = 0; i < numNodes; i++)` loop of
`generateRandomGraph` (source lines 141-166): place up to `remaining` more
nodes, stopping early (and returning the nodes accepted so far) when a
placement attempt budget is exhausted. -/
noncomputable def placeNodes (r : ℕ → ℝ) :
    ℕ → ℕ → ℕ → List Node → List Node
  | _, _, 0, nodes => nodes
  | k, i, remaining + 1, nodes =>
    match tryPlace r nodes k 100 with
    | none => nodes
    | some (x, y, k2) => placeNodes r k2 (i + 1) remaining (nodes ++ [⟨x, y, i⟩])

/-- The node-generation portion of `generateRandomGraph` (source lines
117-166), with the `Math.random()` results passed in as the stream `r`:
draw 0 picks `numNodes = Math.floor(Math.random() * 7) + 3`, and the
remaining draws feed node placement. -/
noncomputable def generateRandomGraph (r : ℕ → ℝ) : List Node :=
  placeNodes r 1 0 (⌊r 0 * 7⌋ + 3).toNat []

/-- `calculateDistanceMatrix` (source lines 176-200): an `n × n` table with
`Infinity` on the diagonal and `min(euclidean * 0.2, 99)` off it.
(`nodes.getD` is always used in bounds: `i, j < nodes.length`.) -/
noncomputable def calculateDistanceMatrix (nodes : List Node) :
    List (List (EDist ℝ)) :=
  (List.range nodes.length).map fun i =>
    (List.range nodes.length).map fun j =>
      if i ≠ j then
        EDist.val
          (min (euclidDist (nodes.getD i ⟨0, 0, 0⟩) (nodes.getD j ⟨0, 0, 0⟩)
              * 0.2) 99)
      else EDist.inf

lemma EDist.ltb_irrefl (a : EDist ℚ) : a.ltb a = false := by
  cases a <;> simp [EDist.ltb]

lemma EDist.ltb_asymm {a b : EDist ℚ} (h : a.ltb b = true) :
    b.ltb a = false := by
  cases a <;> cases b <;> simp_all [EDist.ltb] <;> linarith

lemma EDist.ltb_of_ltb_of_not_ltb {a b c : EDist ℚ}
    (h1 : a.ltb b = true) (h2 : c.ltb b = false) : a.ltb c = true := by
  cases a <;> cases b <;> cases c <;> simp_all [EDist.ltb] <;> linarith

lemma scanRow_zero (row : List (EDist ℚ)) (visited : Finset ℤ) :
    scanRow row 0 visited = (EDist.inf, -1) := rfl

lemma scanRow_succ (row : List (EDist ℚ)) (visited : Finset ℤ) (n : ℕ) :
    scanRow row (n + 1) visited =
      (if (n : ℤ) ∈ visited then scanRow row n visited
       else
         match elemGet? row (n : ℤ) with
         | none => scanRow row n visited
         | some d =>
           if d.ltb (scanRow row n visited).1 then (d, (n : ℤ))
           else scanRow row n visited) := by
  simp [scanRow, List.range_succ]

/-- What the ascending scan has established after covering columns
`0, ..., n-1`: either nothing has been picked (`(Infinity, -1)`) because every
existing unvisited entry so far is `Infinity`, or the accumulator holds the
first column `jm` attaining the strict minimum of the unvisited entries seen
so far. -/
def scanInv (row : List (EDist ℚ)) (visited : Finset ℤ) (n : ℕ)
    (acc : EDist ℚ × ℤ) : Prop :=
  (acc = (EDist.inf, -1) ∧
    ∀ j, j < n → (j : ℤ) ∉ visited →
      ∀ e, elemGet? row (j : ℤ) = some e → e = EDist.inf) ∨
  (∃ jm : ℕ, jm < n ∧ acc.2 = (jm : ℤ) ∧ (jm : ℤ) ∉ visited ∧
    elemGet? row (jm : ℤ) = some acc.1 ∧
    (∀ j, j < n → (j : ℤ) ∉ visited →
      ∀ e, elemGet? row (j : ℤ) = some e → e.ltb acc.1 = false) ∧
    (∀ j, j < jm → (j : ℤ) ∉ visited →
      ∀ e, elemGet? row (j : ℤ) = some e → acc.1.ltb e = true))

lemma scanRow_inv (row : List (EDist ℚ)) (visited : Finset ℤ) :
    ∀ n, scanInv row visited n (scanRow row n visited) := by
  intro n
  induction n with
  | zero =>
    left
    exact ⟨scanRow_zero row visited, fun j hj => absurd hj (by omega)⟩
  | succ n ih =>
    rw [scanRow_succ]
    by_cases hv : (n : ℤ) ∈ visited
    · rw [if_pos hv]
      rcases ih with ⟨hacc, hA⟩ | ⟨jm, hjm, h2, h3, h4, h5, h6⟩
      · left
        refine ⟨hacc, fun j hj hjv e he => ?_⟩
        rcases Nat.lt_succ_iff_lt_or_eq.mp hj with hj' | rfl
        · exact hA j hj' hjv e he
        · exact absurd hv hjv
      · right
        refine ⟨jm, by omega, h2, h3, h4, fun j hj hjv e he => ?_, h6⟩
        rcases Nat.lt_succ_iff_lt_or_eq.mp hj with hj' | rfl
        · exact h5 j hj' hjv e he
        · exact absurd hv hjv
    · rw [if_neg hv]
      rcases hel : elemGet? row (n : ℤ) with _ | d
      · rcases ih with ⟨hacc, hA⟩ | ⟨jm, hjm, h2, h3, h4, h5, h6⟩
        · left
          refine ⟨hacc, fun j hj hjv e he => ?_⟩
          rcases Nat.lt_succ_iff_lt_or_eq.mp hj with hj' | rfl
          · exact hA j hj' hjv e he
          · rw [hel] at he; exact absurd he (by simp)
        · right
          refine ⟨jm, by omega, h2, h3, h4, fun j hj hjv e he => ?_, h6⟩
          rcases Nat.lt_succ_iff_lt_or_eq.mp hj with hj' | rfl
          · exact h5 j hj' hjv e he
          · rw [hel] at he; exact absurd he (by simp)
      · show scanInv row visited (n + 1)
          (if d.ltb (scanRow row n visited).1 = true then (d, (n : ℤ))
           else scanRow row n visited)
        rcases ih with ⟨hacc, hA⟩ | ⟨jm, hjm, h2, h3, h4, h5, h6⟩
        · rw [hacc]
          cases d with
          | inf =>
            rw [if_neg (by simp [EDist.ltb])]
            left
            refine ⟨rfl, fun j hj hjv e he => ?_⟩
            rcases Nat.lt_succ_iff_lt_or_eq.mp hj with hj' | rfl
            · exact hA j hj' hjv e he
            · rw [hel] at he
              injection he with he'
              exact he'.symm
          | val q =>
            rw [if_pos (by simp [EDist.ltb])]
            right
            refine ⟨n, by omega, rfl, hv, hel, ?_, ?_⟩
            · intro j hj hjv e he
              rcases Nat.lt_succ_iff_lt_or_eq.mp hj with hj' | rfl
              · have := hA j hj' hjv e he
                subst this
                simp [EDist.ltb]
              · rw [hel] at he
                injection he with he'
                subst he'
                exact EDist.ltb_irrefl _
            · intro j hj hjv e he
              have := hA j (by omega) hjv e he
              subst this
              simp [EDist.ltb]
        · by_cases hd : d.ltb (scanRow row n visited).1 = true
          · rw [if_pos hd]
            right
            refine ⟨n, by omega, rfl, hv, hel, ?_, ?_⟩
            · intro j hj hjv e he
              rcases Nat.lt_succ_iff_lt_or_eq.mp hj with hj' | rfl
              · have h5j := h5 j hj' hjv e he
                exact EDist.ltb_asymm (EDist.ltb_of_ltb_of_not_ltb hd h5j)
              · rw [hel] at he
                injection he with he'
                subst he'
                exact EDist.ltb_irrefl d
            · intro j hj hjv e he
              exact EDist.ltb_of_ltb_of_not_ltb hd (h5 j (by omega) hjv e he)
          · rw [if_neg hd]
            right
            refine ⟨jm, by omega, h2, h3, h4, fun j hj hjv e he => ?_, h6⟩
            rcases Nat.lt_succ_iff_lt_or_eq.mp hj with hj' | rfl
            · exact h5 j hj' hjv e he
            · rw [hel] at he
              injection he with he'
              subst he'
              exact Bool.eq_false_iff.mpr (fun hc => hd hc)

/-- C4: in the greedy selection scan, for any selection state (current row of
the distance matrix and visited set), if the unvisited cities `p < q` both
attain the minimum distance `d` (no unvisited entry is strictly below `d`,
and every unvisited entry before `p` is strictly above `d`, i.e. `p` is the
first minimal index), then the ascending scan with strict `<` comparison
selects `p`: it returns `nextCity = p` with `minDistance = d`. -/
theorem scanRow_tie_break (row : List (EDist ℚ)) (n : ℕ) (visited : Finset ℤ)
    (p q : ℕ) (d : ℚ)
    (hq : q < n) (hpq : p < q)
    (hpv : (p : ℤ) ∉ visited) (hqv : (q : ℤ) ∉ visited)
    (hep : elemGet? row (p : ℤ) = some (EDist.val d))
    (heq : elemGet? row (q : ℤ) = some (EDist.val d))
    (hmin : ∀ j, j < n → (j : ℤ) ∉ visited →
      ∀ e, elemGet? row (j : ℤ) = some e → e.ltb (EDist.val d) = false)
    (hfirst : ∀ j, j < p → (j : ℤ) ∉ visited →
      ∀ e, elemGet? row (j : ℤ) = some e → (EDist.val d).ltb e = true) :
    scanRow row n visited = (EDist.val d, (p : ℤ)) := by
  have hp : p < n := hpq.trans hq
  rcases scanRow_inv row visited n with ⟨hacc, hA⟩ | ⟨jm, hjm, h2, h3, h4, h5, h6⟩
  · have := hA p hp hpv _ hep
    exact absurd this (by simp)
  · rcases lt_trichotomy jm p with h | h | h
    · have h1 : (EDist.val d).ltb (scanRow row n visited).1 = true :=
        hfirst jm h h3 _ h4
      have h2' : (EDist.val d).ltb (scanRow row n visited).1 = false :=
        h5 p hp hpv _ hep
      simp [h1] at h2'
    · subst h
      rw [hep] at h4
      injection h4 with h4'
      have : (scanRow row n visited).1 = EDist.val d := h4'.symm
      rw [Prod.ext_iff]
      exact ⟨this, h2⟩
    · have h1 : (scanRow row n visited).1.ltb (EDist.val d) = true :=
        h6 p h hpv _ hep
      have h2' : (scanRow row n visited).1.ltb (EDist.val d) = false :=
        hmin jm hjm h3 _ h4
      simp [h1] at h2'

theorem scanRow_tie_break_witness :
    scanRow [EDist.val 5, EDist.val 5, EDist.val 7] 3 ∅ = (EDist.val 5, 0) :=
  scanRow_tie_break [EDist.val 5, EDist.val 5, EDist.val 7] 3 ∅ 0 1 5
    (by omega) (by omega) (by decide) (by decide) (by decide) (by decide)
    (by
      intro j hj hjv e he
      interval_cases j <;>
        (simp only [elemGet?, Nat.cast_ofNat, Nat.cast_zero, Nat.cast_one] at he <;>
          norm_num at he) <;>
        subst he <;> decide)
    (by intro j hj; omega)

/-- The spec's `DistanceMatrix` data type: an `n × n` table with `Infinity` on
the diagonal and a finite value in `[0, 99]` (`distanceCap`) off it.  This is
the shape `calculateDistanceMatrix` produces and the quantification domain of
the claims about the tour builder. -/
def IsDistanceMatrix (M : List (List (EDist ℚ))) (n : ℕ) : Prop :=
  M.length = n ∧ (∀ row ∈ M, row.length = n) ∧
  (∀ i, i < n → entry? M i i = some EDist.inf) ∧
  (∀ i, i < n → ∀ j, j < n → i ≠ j →
    ∃ q : ℚ, entry? M i j = some (EDist.val q) ∧ 0 ≤ q ∧ q ≤ 99)

lemma rowGet?_of_nonneg (M : List (List (EDist ℚ))) (i : ℤ) (h : 0 ≤ i) :
    rowGet? M i = M.get? i.toNat := by
  unfold rowGet?
  rw [if_neg (by omega)]

lemma elemGet?_of_nonneg (row : List (EDist ℚ)) (j : ℤ) (h : 0 ≤ j) :
    elemGet? row j = row.get? j.toNat := by
  unfold elemGet?
  rw [if_neg (by omega)]

lemma elemGet?_natCast (row : List (EDist ℚ)) (j : ℕ) :
    elemGet? row (j : ℤ) = row.get? j := by
  rw [elemGet?_of_nonneg row _ (by omega), Int.toNat_natCast]

lemma entry?_of_row {α : Type} (M : List (List α)) (i : ℕ) (row : List α)
    (h : M.get? i = some row) (j : ℕ) : entry? M i j = row.get? j := by
  unfold entry?
  rw [h]
  rfl

lemma sumList_concat (l : List (EDist ℚ)) (x : EDist ℚ) :
    EDist.sumList (l ++ [x]) = (EDist.sumList l).add x := by
  simp [EDist.sumList, List.foldl_append]

lemma getD_head (path : List ℤ) (s : ℤ) (h : path.head? = some s) :
    path.getD 0 0 = s := by
  cases path with
  | nil => simp at h
  | cons a t =>
    simp only [List.head?_cons, Option.some.injEq] at h
    simp [h]

lemma getD_getLast (path : List ℤ) (cur : ℤ) (hne : path ≠ [])
    (h : path.getLast? = some cur) : path.getD (path.length - 1) 0 = cur := by
  have hl := List.getLast?_eq_getLast_of_ne_nil hne
  rw [h] at hl
  injection hl with hl'
  have hpos : 0 < path.length := List.length_pos.mpr hne
  rw [List.getD_eq_get _ _ (by omega)]
  rw [hl']
  exact (List.getLast_eq_get path hne).symm

lemma exists_unvisited (n : ℕ) (visited : Finset ℤ) (h : visited.card < n) :
    ∃ j : ℕ, j < n ∧ (j : ℤ) ∉ visited := by
  by_contra hc
  push_neg at hc
  have hsub : Finset.Ico (0 : ℤ) (n : ℤ) ⊆ visited := by
    intro x hx
    rw [Finset.mem_Ico] at hx
    have hx' : x = ((x.toNat : ℕ) : ℤ) := (Int.toNat_of_nonneg hx.1).symm
    rw [hx']
    exact hc x.toNat (by omega)
  have hcard := Finset.card_le_card hsub
  rw [Int.card_Ico] at hcard
  simp at hcard
  omega

/-- The state invariant of the `while` loop of `findMinRoute`: the path starts
at the start city and ends at the current one, never repeats a city, stays
inside `[0, n)`, the visited set is exactly the set of path entries, there is
one recorded step per edge of the path, the accumulated cost is the sum of
the recorded `costAdded`s, and step `i` records the path prefix of length
`i + 1` together with its `i`-th and `(i+1)`-th cities. -/
def LoopInv (n : ℕ) (startNodeIndex cur : ℤ) (visited : Finset ℤ)
    (path : List ℤ) (steps : List TourStep) (totalCost : EDist ℚ) : Prop :=
  path ≠ [] ∧
  path.head? = some startNodeIndex ∧
  path.getLast? = some cur ∧
  path.Nodup ∧
  (∀ x ∈ path, 0 ≤ x ∧ x < (n : ℤ)) ∧
  visited = path.toFinset ∧
  steps.length + 1 = path.length ∧
  totalCost = EDist.sumList (steps.map TourStep.costAdded) ∧
  ∀ i, i < steps.length →
    (steps.getD i default).currentPath = path.take (i + 1) ∧
    (steps.getD i default).currentCity = path.getD i 0 ∧
    (steps.getD i default).nextCity = path.getD (i + 1) 0

/-- Appending one step `⟨cur, x, path, m⟩` while appending `x` to the path
preserves the per-step bookkeeping of `LoopInv`.  Used both for an expansion
step of the loop and for the final closing step. -/
lemma steps_append (path : List ℤ) (steps : List TourStep) (cur x : ℤ)
    (m : EDist ℚ)
    (hlen : steps.length + 1 = path.length)
    (hlast : path.getLast? = some cur)
    (hsteps : ∀ i, i < steps.length →
      (steps.getD i default).currentPath = path.take (i + 1) ∧
      (steps.getD i default).currentCity = path.getD i 0 ∧
      (steps.getD i default).nextCity = path.getD (i + 1) 0) :
    ∀ i, i < steps.length + 1 →
      ((steps ++ [TourStep.mk cur x path m]).getD i default).currentPath =
        (path ++ [x]).take (i + 1) ∧
      ((steps ++ [TourStep.mk cur x path m]).getD i default).currentCity =
        (path ++ [x]).getD i 0 ∧
      ((steps ++ [TourStep.mk cur x path m]).getD i default).nextCity =
        (path ++ [x]).getD (i + 1) 0 := by
  intro i hi
  have hne : path ≠ [] := by
    intro hnil
    rw [hnil] at hlen
    simp at hlen
  rcases Nat.lt_or_ge i steps.length with hi' | hi'
  · rw [List.getD_append _ _ _ _ hi']
    obtain ⟨e1, e2, e3⟩ := hsteps i hi'
    refine ⟨?_, ?_, ?_⟩
    · rw [e1, List.take_append_of_le_length (by omega)]
    · rw [e2, List.getD_append _ _ _ _ (by omega)]
    · rw [e3, List.getD_append _ _ _ _ (by omega)]
  · have hieq : i = steps.length := by omega
    subst hieq
    rw [List.getD_append_right _ _ _ _ (le_refl _)]
    simp only [Nat.sub_self, List.getD_cons_zero]
    refine ⟨?_, ?_, ?_⟩
    · show path = (path ++ [x]).take (steps.length + 1)
      rw [hlen, List.take_append_of_le_length (le_refl _), List.take_length]
    · show cur = (path ++ [x]).getD steps.length 0
      rw [List.getD_append _ _ _ _ (by omega)]
      have : steps.length = path.length - 1 := by omega
      rw [this, getD_getLast path cur hne hlast]
    · show x = (path ++ [x]).getD (steps.length + 1) 0
      rw [hlen, List.getD_append_right _ _ _ _ (le_refl _)]
      simp

lemma greedyLoop_exit (M : List (List (EDist ℚ))) (n : ℕ) (fuel : ℕ)
    (visited : Finset ℤ) (cur : ℤ) (path : List ℤ) (steps : List TourStep)
    (totalCost : EDist ℚ) (hcard : ¬ visited.card < n) :
    greedyLoop M n fuel visited cur path steps totalCost =
      some (cur, path, steps, totalCost) := by
  rw [greedyLoop.eq_def]
  dsimp only
  rw [if_neg hcard]

lemma loopInv_final (n : ℕ) (startNodeIndex cur : ℤ) (visited : Finset ℤ)
    (path : List ℤ) (steps : List TourStep) (totalCost : EDist ℚ)
    (hInv : LoopInv n startNodeIndex cur visited path steps totalCost)
    (hcard : ¬ visited.card < n) :
    LoopInv n startNodeIndex cur path.toFinset path steps totalCost ∧
      path.length = n := by
  obtain ⟨h1, h2, h3, h4, h5, h6, h7, h8, h9⟩ := hInv
  have hlen : path.toFinset.card = path.length := List.toFinset_card_of_nodup h4
  have hsub : path.toFinset ⊆ Finset.Ico (0 : ℤ) (n : ℤ) := by
    intro x hx
    rw [List.mem_toFinset] at hx
    exact Finset.mem_Ico.mpr ⟨(h5 x hx).1, (h5 x hx).2⟩
  have hle : path.toFinset.card ≤ n := by
    have := Finset.card_le_card hsub
    rw [Int.card_Ico] at this
    simpa using this
  have hplen : path.length = n := by
    rw [h6] at hcard
    omega
  exact ⟨⟨h1, h2, h3, h4, h5, rfl, h7, h8, h9⟩, hplen⟩

/-- The `while` loop of `findMinRoute`, run with enough fuel from a state
satisfying the invariant on a well-formed matrix, terminates successfully in
a state that still satisfies the invariant and whose path covers all `n`
cities. -/
lemma greedyLoop_spec (M : List (List (EDist ℚ))) (n : ℕ)
    (startNodeIndex : ℤ) (hM : IsDistanceMatrix M n) :
    ∀ fuel visited cur path steps totalCost,
      LoopInv n startNodeIndex cur visited path steps totalCost →
      n ≤ visited.card + fuel →
      ∃ cur2 path2 steps2 cost2,
        greedyLoop M n fuel visited cur path steps totalCost =
          some (cur2, path2, steps2, cost2) ∧
        LoopInv n startNodeIndex cur2 path2.toFinset path2 steps2 cost2 ∧
        path2.length = n := by
  intro fuel
  induction fuel with
  | zero =>
    intro visited cur path steps totalCost hInv hfuel
    have hcard : ¬ visited.card < n := by omega
    obtain ⟨hInv2, hlen⟩ := loopInv_final n startNodeIndex cur visited path
      steps totalCost hInv hcard
    exact ⟨cur, path, steps, totalCost,
      greedyLoop_exit M n 0 visited cur path steps totalCost hcard, hInv2, hlen⟩
  | succ f ih =>
    intro visited cur path steps totalCost hInv hfuel
    by_cases hcard : visited.card < n
    · obtain ⟨h1, h2, h3, h4, h5, h6, h7, h8, h9⟩ := hInv
      have hcur_mem : cur ∈ path := List.mem_of_mem_getLast? h3
      have hcur_bounds := h5 cur hcur_mem
      have hcurN : cur.toNat < n := by omega
      have hMlen : cur.toNat < M.length := by rw [hM.1]; exact hcurN
      obtain ⟨row, hrow⟩ : ∃ row, M.get? cur.toNat = some row :=
        ⟨M.get ⟨cur.toNat, hMlen⟩, List.get?_eq_get hMlen⟩
      have hrow_mem : row ∈ M := List.get?_mem hrow
      have hrowlen : row.length = n := hM.2.1 row hrow_mem
      have hrowget : rowGet? M cur = some row := by
        rw [rowGet?_of_nonneg M cur hcur_bounds.1, hrow]
      have hentry : ∀ j : ℕ, elemGet? row (j : ℤ) = entry? M cur.toNat j := by
        intro j
        rw [elemGet?_natCast, entry?_of_row M cur.toNat row hrow j]
      have hcur_vis : cur ∈ visited := by
        rw [h6, List.mem_toFinset]
        exact hcur_mem
      obtain ⟨j0, hj0n, hj0v⟩ := exists_unvisited n visited hcard
      have hne0 : cur.toNat ≠ j0 := by
        intro hcontra
        apply hj0v
        rw [← hcontra, Int.toNat_of_nonneg hcur_bounds.1]
        exact hcur_vis
      obtain ⟨q0, hq0, _, _⟩ := hM.2.2.2 cur.toNat hcurN j0 hj0n hne0
      rcases scanRow_inv row visited n with ⟨hacc, hA⟩ |
        ⟨jm, hjm, hs2, hjmv, hjme, hmin, hfirst⟩
      · exfalso
        have := hA j0 hj0n hj0v (EDist.val q0) (by rw [hentry j0]; exact hq0)
        simp at this
      · have hjm_not_path : (jm : ℤ) ∉ path := by
          intro hmem
          apply hjmv
          rw [h6, List.mem_toFinset]
          exact hmem
        have hne_neg : ¬ ((scanRow row n visited).2 = -1) := by
          rw [hs2]
          omega
        rw [greedyLoop.eq_def]
        dsimp only
        rw [if_pos hcard, hrowget]
        show ∃ cur2 path2 steps2 cost2,
          (if (scanRow row n visited).2 = -1 then none
           else greedyLoop M n f (insert (scanRow row n visited).2 visited)
             (scanRow row n visited).2 (path ++ [(scanRow row n visited).2])
             (steps ++ [TourStep.mk cur (scanRow row n visited).2 path
               (scanRow row n visited).1])
             (totalCost.add (scanRow row n visited).1)) =
            some (cur2, path2, steps2, cost2) ∧
          LoopInv n startNodeIndex cur2 path2.toFinset path2 steps2 cost2 ∧
          path2.length = n
        rw [if_neg hne_neg, hs2]
        apply ih (insert ((jm : ℤ)) visited) ((jm : ℤ)) (path ++ [(jm : ℤ)])
          (steps ++ [TourStep.mk cur ((jm : ℤ)) path (scanRow row n visited).1])
          (totalCost.add (scanRow row n visited).1)
        · refine ⟨by simp, ?_, List.getLast?_concat path, ?_, ?_, ?_, ?_, ?_, ?_⟩
          · rcases List.exists_cons_of_ne_nil h1 with ⟨a, t, rfl⟩
            simpa using h2
          · exact List.nodup_append.mpr ⟨h4, List.nodup_singleton _, by
              intro a ha hb
              simp at hb
              subst hb
              exact hjm_not_path ha⟩
          · intro x hx
            rcases List.mem_append.mp hx with hx' | hx'
            · exact h5 x hx'
            · simp at hx'
              subst hx'
              exact ⟨by omega, by omega⟩
          · rw [List.toFinset_append, h6]
            ext a
            simp [or_comm]
          · simp only [List.length_append, List.length_cons, List.length_nil]
            omega
          · rw [List.map_append]
            simp only [List.map_cons, List.map_nil]
            rw [sumList_concat, ← h8]
          · intro i hi
            have hi' : i < steps.length + 1 := by simpa using hi
            exact steps_append path steps cur ((jm : ℤ))
              (scanRow row n visited).1 h7 h3 h9 i hi'
        · have hcardins : (insert ((jm : ℤ)) visited).card = visited.card + 1 :=
            Finset.card_insert_of_not_mem hjmv
          omega
    · obtain ⟨hInv2, hlen⟩ := loopInv_final n startNodeIndex cur visited path
        steps totalCost hInv hcard
      exact ⟨cur, path, steps, totalCost,
        greedyLoop_exit M n (f + 1) visited cur path steps totalCost hcard,
        hInv2, hlen⟩

/-- Full characterization of `findMinRoute` on a well-formed `n × n` distance
matrix with `1 ≤ n` and an in-range start index: it succeeds, the final path
has length `n + 1`, starts and ends at the start city, visits every city
exactly once before the final return, there are exactly `n` recorded steps,
the total cost is the sum of the recorded `costAdded`s, and step `i` records
the length-`(i+1)` prefix of the final path together with its `i`-th and
`(i+1)`-th cities. -/
lemma findMinRoute_spec (M : List (List (EDist ℚ))) (n : ℕ)
    (startNodeIndex : ℤ) (hM : IsDistanceMatrix M n) (hn : 1 ≤ n)
    (h0 : 0 ≤ startNodeIndex) (h1 : startNodeIndex < (n : ℤ)) :
    ∃ res, findMinRoute M n startNodeIndex = some res ∧
      res.finalPath.length = n + 1 ∧
      res.steps.length = n ∧
      res.finalPath.getD 0 0 = startNodeIndex ∧
      res.finalPath.getD n 0 = startNodeIndex ∧
      (res.finalPath.take n).Nodup ∧
      (∀ x ∈ res.finalPath, 0 ≤ x ∧ x < (n : ℤ)) ∧
      (∀ c : ℤ, 0 ≤ c → c < (n : ℤ) → (res.finalPath.take n).count c = 1) ∧
      res.totalCost = EDist.sumList (res.steps.map TourStep.costAdded) ∧
      (∀ i, i < n →
        (res.steps.getD i default).currentPath = res.finalPath.take (i + 1) ∧
        (res.steps.getD i default).currentCity = res.finalPath.getD i 0 ∧
        (res.steps.getD i default).nextCity = res.finalPath.getD (i + 1) 0) := by
  have hInv0 : LoopInv n startNodeIndex startNodeIndex {startNodeIndex}
      [startNodeIndex] [] (EDist.val 0) := by
    refine ⟨by simp, rfl, rfl, List.nodup_singleton _, ?_, by simp, by simp,
      rfl, ?_⟩
    · intro x hx
      simp at hx
      subst hx
      exact ⟨h0, h1⟩
    · intro i hi
      simp at hi
  obtain ⟨cur2, path2, steps2, cost2, hloop, hInv2, hplen⟩ :=
    greedyLoop_spec M n startNodeIndex hM n {startNodeIndex} startNodeIndex
      [startNodeIndex] [] (EDist.val 0) hInv0 (by simp)
  obtain ⟨g1, g2, g3, g4, g5, _, g7, g8, g9⟩ := hInv2
  have hcur_mem : cur2 ∈ path2 := List.mem_of_mem_getLast? g3
  have hcb := g5 cur2 hcur_mem
  have hMlen : cur2.toNat < M.length := by
    rw [hM.1]
    omega
  obtain ⟨row2, hrow2⟩ : ∃ r, M.get? cur2.toNat = some r :=
    ⟨M.get ⟨cur2.toNat, hMlen⟩, List.get?_eq_get hMlen⟩
  have hrowget2 : rowGet? M cur2 = some row2 := by
    rw [rowGet?_of_nonneg M cur2 hcb.1, hrow2]
  have hrl : row2.length = n := hM.2.1 row2 (List.get?_mem hrow2)
  have hsN : startNodeIndex.toNat < row2.length := by
    rw [hrl]
    omega
  obtain ⟨rc, hrc⟩ : ∃ rc, row2.get? startNodeIndex.toNat = some rc :=
    ⟨row2.get ⟨_, hsN⟩, List.get?_eq_get hsN⟩
  have hel : elemGet? row2 startNodeIndex = some rc := by
    rw [elemGet?_of_nonneg row2 _ h0, hrc]
  have hp2pos : 0 < path2.length := by omega
  have htake : (path2 ++ [startNodeIndex]).take n = path2 := by
    rw [← hplen, List.take_append_of_le_length (le_refl _), List.take_length]
  refine ⟨⟨cost2.add rc, path2 ++ [startNodeIndex],
    steps2 ++ [TourStep.mk cur2 startNodeIndex path2 rc]⟩,
    ?_, ?_, ?_, ?_, ?_, ?_, ?_, ?_, ?_, ?_⟩
  · unfold findMinRoute
    rw [hloop]
    dsimp only
    rw [hrowget2]
    dsimp only
    rw [hel]
  · simp [hplen]
  · simp only [List.length_append, List.length_cons, List.length_nil]
    omega
  · show (path2 ++ [startNodeIndex]).getD 0 0 = startNodeIndex
    rw [List.getD_append _ _ _ _ hp2pos]
    exact getD_head path2 _ g2
  · show (path2 ++ [startNodeIndex]).getD n 0 = startNodeIndex
    rw [← hplen, List.getD_append_right _ _ _ _ (le_refl _)]
    simp
  · show ((path2 ++ [startNodeIndex]).take n).Nodup
    rw [htake]
    exact g4
  · intro x hx
    rcases List.mem_append.mp hx with hx' | hx'
    · exact g5 x hx'
    · simp at hx'
      subst hx'
      exact ⟨h0, h1⟩
  · intro c hc0 hc1
    show ((path2 ++ [startNodeIndex]).take n).count c = 1
    rw [htake]
    have hcard : path2.toFinset.card = n := by
      rw [List.toFinset_card_of_nodup g4, hplen]
    have hsub : path2.toFinset ⊆ Finset.Ico (0 : ℤ) (n : ℤ) := by
      intro x hx
      rw [List.mem_toFinset] at hx
      exact Finset.mem_Ico.mpr ⟨(g5 x hx).1, (g5 x hx).2⟩
    have heq : path2.toFinset = Finset.Ico (0 : ℤ) (n : ℤ) :=
      Finset.eq_of_subset_of_card_le hsub
        (by rw [Int.card_Ico]; simp [hcard])
    have hcmem : c ∈ path2 := by
      rw [← List.mem_toFinset, heq]
      exact Finset.mem_Ico.mpr ⟨hc0, hc1⟩
    exact List.count_eq_one_of_mem g4 hcmem
  · show cost2.add rc = EDist.sumList
      ((steps2 ++ [TourStep.mk cur2 startNodeIndex path2 rc]).map
        TourStep.costAdded)
    rw [List.map_append]
    simp only [List.map_cons, List.map_nil]
    rw [sumList_concat, ← g8]
  · intro i hi
    exact steps_append path2 steps2 cur2 startNodeIndex rc g7 g3 g9 i
      (by omega)

lemma getLast?_index {α : Type} (l : List α) :
    l.getLast? = l.get? (l.length - 1) := by
  cases l with
  | nil => rfl
  | cons a t =>
    rw [List.getLast?_eq_getLast_of_ne_nil (by simp)]
    rw [List.get?_eq_get (by simp)]
    congr 1
    exact List.getLast_eq_get _ _

lemma take_getLast? (l : List ℤ) (i : ℕ) (h : i < l.length) :
    (l.take (i + 1)).getLast? = some (l.getD i 0) := by
  have ht : (l.take (i + 1)).length = i + 1 := by
    rw [List.length_take]
    omega
  rw [getLast?_index, ht, Nat.add_sub_cancel]
  rw [List.get?_take (Nat.lt_succ_self i)]
  rw [List.get?_eq_get h]
  congr 1
  exact (List.getD_eq_get l 0 h).symm

/-- The concrete 2 × 2 distance matrix used by the witnesses. -/
def M2 : List (List (EDist ℚ)) := [[EDist.inf, EDist.val 5], [EDist.val 5, EDist.inf]]

lemma M2_isDistanceMatrix : IsDistanceMatrix M2 2 := by
  refine ⟨rfl, by decide, ?_, ?_⟩
  · intro i hi
    interval_cases i <;> rfl
  · intro i hi j hj hne
    interval_cases i <;> interval_cases j
    · exact absurd rfl hne
    · exact ⟨5, rfl, by norm_num, by norm_num⟩
    · exact ⟨5, rfl, by norm_num, by norm_num⟩
    · exact absurd rfl hne

/-- C1: for every distance matrix of size `n ≥ 2` and every start index with
`0 ≤ startId < n`, `findMinRoute` returns a `TourResult` whose `steps` has
length exactly `n`, whose `finalPath` has length `n + 1`, whose
`finalPath[0]` and `finalPath[n]` both equal the start index, and in which
every id in `0..n-1` appears exactly once among `finalPath[0..n-1]`. -/
theorem findMinRoute_valid_structure (M : List (List (EDist ℚ))) (n : ℕ)
    (startNodeIndex : ℤ) (hM : IsDistanceMatrix M n) (hn : 2 ≤ n)
    (h0 : 0 ≤ startNodeIndex) (h1 : startNodeIndex < (n : ℤ)) :
    ∃ res, findMinRoute M n startNodeIndex = some res ∧
      res.steps.length = n ∧
      res.finalPath.length = n + 1 ∧
      res.finalPath.getD 0 0 = startNodeIndex ∧
      res.finalPath.getD n 0 = startNodeIndex ∧
      (∀ c : ℤ, 0 ≤ c → c < (n : ℤ) → (res.finalPath.take n).count c = 1) := by
  obtain ⟨res, he, hlen, hsteps, hd0, hdn, _, _, hcount, _, _⟩ :=
    findMinRoute_spec M n startNodeIndex hM (by omega) h0 h1
  exact ⟨res, he, hsteps, hlen, hd0, hdn, hcount⟩

theorem findMinRoute_valid_structure_witness :
    ∃ res, findMinRoute M2 2 0 = some res ∧
      res.steps.length = 2 ∧
      res.finalPath.length = 3 ∧
      res.finalPath.getD 0 0 = 0 ∧
      res.finalPath.getD 2 0 = 0 ∧
      (∀ c : ℤ, 0 ≤ c → c < 2 → (res.finalPath.take 2).count c = 1) :=
  findMinRoute_valid_structure M2 2 0 M2_isDistanceMatrix (by omega)
    (by omega) (by omega)

/-- C2: with an empty point set (`n = 0`) or an out-of-range start index
(`startId < 0` or `startId ≥ n`), `findMinRoute` produces no `TourResult`:
the operation fails (in the source, indexing `distanceMatrix[currentCity]`
yields `undefined` and the subsequent access throws a `TypeError`, modelled
here as `none`), and no partial result is returned. -/
theorem findMinRoute_invalid_input (M : List (List (EDist ℚ))) (n : ℕ)
    (startNodeIndex : ℤ) (hlen : M.length = n)
    (h : n = 0 ∨ startNodeIndex < 0 ∨ (n : ℤ) ≤ startNodeIndex) :
    findMinRoute M n startNodeIndex = none := by
  have hnone : rowGet? M startNodeIndex = none := by
    unfold rowGet?
    split_ifs with hs
    · rfl
    · rw [List.get?_eq_none]
      rcases h with rfl | h' | h'
      · omega
      · omega
      · omega
  by_cases hcard : ({startNodeIndex} : Finset ℤ).card < n
  · have h2 : 2 ≤ n := by
      rw [Finset.card_singleton] at hcard
      omega
    obtain ⟨m, rfl⟩ : ∃ m, n = m + 1 := ⟨n - 1, by omega⟩
    unfold findMinRoute
    rw [greedyLoop.eq_def]
    dsimp only
    rw [if_pos hcard, hnone]
  · unfold findMinRoute
    rw [greedyLoop_exit M n n _ _ _ _ _ hcard]
    dsimp only
    rw [hnone]

theorem findMinRoute_invalid_input_witness :
    findMinRoute [] 0 0 = none :=
  findMinRoute_invalid_input [] 0 0 rfl (Or.inl rfl)

/-- C3 (code behavior): on the 1 × 1 matrix `[[Infinity]]` with start index
`0`, `findMinRoute` does NOT special-case `n = 1`: the `while` loop is
skipped, but the closing step still runs, producing the self-loop step
`0 → 0` with `costAdded = Infinity`, `totalCost = Infinity` and
`finalPath = [0, 0]` — not `totalCost = 0`, `finalPath = [0]`, `steps = []`
as the specification requires. -/
theorem findMinRoute_one_city_self_loop :
    findMinRoute [[EDist.inf]] 1 0 =
      some ⟨EDist.inf, [0, 0], [⟨0, 0, [0], EDist.inf⟩]⟩ := by
  decide

/-- C5: on every valid input, the returned `totalCost` equals the sum of
`costAdded` over the returned `steps`. -/
theorem findMinRoute_totalCost_eq_sum (M : List (List (EDist ℚ))) (n : ℕ)
    (startNodeIndex : ℤ) (hM : IsDistanceMatrix M n) (hn : 1 ≤ n)
    (h0 : 0 ≤ startNodeIndex) (h1 : startNodeIndex < (n : ℤ)) :
    ∃ res, findMinRoute M n startNodeIndex = some res ∧
      res.totalCost = EDist.sumList (res.steps.map TourStep.costAdded) := by
  obtain ⟨res, he, _, _, _, _, _, _, _, hcost, _⟩ :=
    findMinRoute_spec M n startNodeIndex hM hn h0 h1
  exact ⟨res, he, hcost⟩

theorem findMinRoute_totalCost_eq_sum_witness :
    ∃ res, findMinRoute M2 2 0 = some res ∧
      res.totalCost = EDist.sumList (res.steps.map TourStep.costAdded) :=
  findMinRoute_totalCost_eq_sum M2 2 0 M2_isDistanceMatrix (by omega)
    (by omega) (by omega)

/-- C9: on every valid input with `n ≥ 2`, each recorded step's `currentPath`
ends in that step's `currentCity`; `steps[0].currentCity` is the start index;
`steps[i].currentPath` is the prefix `finalPath[0..i]`; and consecutive steps
chain: `steps[i+1].currentCity = steps[i].nextCity`. -/
theorem findMinRoute_steps_chain (M : List (List (EDist ℚ))) (n : ℕ)
    (startNodeIndex : ℤ) (hM : IsDistanceMatrix M n) (hn : 2 ≤ n)
    (h0 : 0 ≤ startNodeIndex) (h1 : startNodeIndex < (n : ℤ)) :
    ∃ res, findMinRoute M n startNodeIndex = some res ∧
      (res.steps.getD 0 default).currentCity = startNodeIndex ∧
      (∀ i, i < res.steps.length →
        (res.steps.getD i default).currentPath.getLast? =
          some ((res.steps.getD i default).currentCity)) ∧
      (∀ i, i < res.steps.length →
        (res.steps.getD i default).currentPath = res.finalPath.take (i + 1)) ∧
      (∀ i, i + 1 < res.steps.length →
        (res.steps.getD (i + 1) default).currentCity =
          (res.steps.getD i default).nextCity) := by
  obtain ⟨res, he, hlen, hsteps, hd0, _, _, _, _, _, hprop⟩ :=
    findMinRoute_spec M n startNodeIndex hM (by omega) h0 h1
  refine ⟨res, he, ?_, ?_, ?_, ?_⟩
  · rw [(hprop 0 (by omega)).2.1, hd0]
  · intro i hi
    rw [hsteps] at hi
    rw [(hprop i hi).1, (hprop i hi).2.1]
    exact take_getLast? res.finalPath i (by omega)
  · intro i hi
    rw [hsteps] at hi
    exact (hprop i hi).1
  · intro i hi
    rw [hsteps] at hi
    rw [(hprop (i + 1) hi).2.1, (hprop i (by omega)).2.2]

theorem findMinRoute_steps_chain_witness :
    ∃ res, findMinRoute M2 2 0 = some res ∧
      (res.steps.getD 0 default).currentCity = 0 ∧
      (∀ i, i < res.steps.length →
        (res.steps.getD i default).currentPath.getLast? =
          some ((res.steps.getD i default).currentCity)) ∧
      (∀ i, i < res.steps.length →
        (res.steps.getD i default).currentPath = res.finalPath.take (i + 1)) ∧
      (∀ i, i + 1 < res.steps.length →
        (res.steps.getD (i + 1) default).currentCity =
          (res.steps.getD i default).nextCity) :=
  findMinRoute_steps_chain M2 2 0 M2_isDistanceMatrix (by omega) (by omega)
    (by omega)

/-- C8: for every step trace and every tick `k < steps.length`, the
cumulative cost computed by `drawAnimationStep` equals the prefix sum of
`costAdded` over `steps[0..k]`, recomputed from the trace alone. -/
theorem drawAnimationStepCost_prefix_sum (steps : List TourStep) (k : ℕ)
    (hk : k < steps.length) :
    drawAnimationStepCost steps k =
      some (EDist.sumList ((steps.take (k + 1)).map TourStep.costAdded)) := by
  induction k with
  | zero =>
    obtain ⟨s0, hs0⟩ : ∃ s0, steps.get? 0 = some s0 :=
      ⟨steps.get ⟨0, hk⟩, List.get?_eq_get hk⟩
    have hs0g : steps[0]? = some s0 := by
      rw [← List.get?_eq_getElem?]
      exact hs0
    unfold drawAnimationStepCost
    rw [List.range_succ, List.take_succ, List.take_zero, hs0g]
    simp only [List.range_zero, List.nil_append, List.foldlM_cons,
      List.foldlM_nil, Option.toList_some, List.map_cons, List.map_nil]
    simp [hs0, EDist.sumList]
    exact ⟨s0, hs0g, rfl⟩
  | succ k ih =>
    have hk' : k < steps.length := by omega
    have hrec := ih hk'
    obtain ⟨sk, hsk⟩ : ∃ s, steps.get? (k + 1) = some s :=
      ⟨steps.get ⟨k + 1, hk⟩, List.get?_eq_get hk⟩
    have hskg : steps[k + 1]? = some sk := by
      rw [← List.get?_eq_getElem?]
      exact hsk
    unfold drawAnimationStepCost at hrec ⊢
    rw [List.range_succ, List.foldlM_append, hrec]
    simp only [List.foldlM_cons, List.foldlM_nil, hsk, Option.bind_eq_bind,
      Option.some_bind, Option.map_some]
    conv_rhs => rw [List.take_succ]
    rw [hskg]
    simp only [Option.toList_some, List.map_append, List.map_cons,
      List.map_nil]
    rw [sumList_concat]
    simp

theorem drawAnimationStepCost_prefix_sum_witness :
    drawAnimationStepCost [⟨0, 1, [0], EDist.val 3⟩] 0 =
      some (EDist.val 3) :=
  (drawAnimationStepCost_prefix_sum [⟨0, 1, [0], EDist.val 3⟩] 0
    (by simp)).trans (by norm_num [EDist.sumList, EDist.add])

lemma calcMatrix_entry (nodes : List Node) (i j : ℕ) (hi : i < nodes.length)
    (hj : j < nodes.length) :
    entry? (calculateDistanceMatrix nodes) i j =
      some (if i ≠ j then
        EDist.val (min (euclidDist (nodes.getD i ⟨0, 0, 0⟩)
          (nodes.getD j ⟨0, 0, 0⟩) * 0.2) 99)
      else EDist.inf) := by
  unfold entry? calculateDistanceMatrix
  simp [List.getElem?_map, List.getElem?_range hi, List.getElem?_range hj,
    List.getD_eq_getElem?_getD]

lemma euclidDist_comm (p q : Node) : euclidDist p q = euclidDist q p := by
  unfold euclidDist
  congr 1
  ring

/-- C6: `calculateDistanceMatrix` produces an `n × n` matrix with `Infinity`
on the diagonal, symmetric off-diagonal entries equal to
`min(euclidean * scaleFactor, 99)` (with `scaleFactor = 0.2`), every
off-diagonal entry lying in `[0, 99]`. -/
theorem calculateDistanceMatrix_spec (nodes : List Node) (i j : ℕ)
    (hi : i < nodes.length) (hj : j < nodes.length) :
    entry? (calculateDistanceMatrix nodes) i i = some EDist.inf ∧
    (i ≠ j → entry? (calculateDistanceMatrix nodes) i j =
      entry? (calculateDistanceMatrix nodes) j i) ∧
    (i ≠ j → ∃ v : ℝ,
      entry? (calculateDistanceMatrix nodes) i j = some (EDist.val v) ∧
      v = min (euclidDist (nodes.getD i ⟨0, 0, 0⟩)
        (nodes.getD j ⟨0, 0, 0⟩) * 0.2) 99 ∧
      0 ≤ v ∧ v ≤ 99) := by
  refine ⟨?_, ?_, ?_⟩
  · rw [calcMatrix_entry nodes i i hi hi]
    simp
  · intro hne
    rw [calcMatrix_entry nodes i j hi hj, calcMatrix_entry nodes j i hj hi]
    rw [if_pos hne, if_pos (Ne.symm hne)]
    rw [euclidDist_comm]
  · intro hne
    rw [calcMatrix_entry nodes i j hi hj, if_pos hne]
    refine ⟨_, rfl, rfl, ?_, min_le_right _ _⟩
    refine le_min ?_ (by norm_num)
    have h0 : (0 : ℝ) ≤ euclidDist (nodes.getD i ⟨0, 0, 0⟩)
        (nodes.getD j ⟨0, 0, 0⟩) := Real.sqrt_nonneg _
    nlinarith

/-- The concrete node pair used by the matrix witness. -/
noncomputable def nodes2 : List Node := [⟨0, 0, 0⟩, ⟨3, 4, 1⟩]

theorem calculateDistanceMatrix_spec_witness :
    entry? (calculateDistanceMatrix nodes2) 0 0 = some EDist.inf ∧
    (0 ≠ 1 → entry? (calculateDistanceMatrix nodes2) 0 1 =
      entry? (calculateDistanceMatrix nodes2) 1 0) ∧
    (0 ≠ 1 → ∃ v : ℝ,
      entry? (calculateDistanceMatrix nodes2) 0 1 = some (EDist.val v) ∧
      v = min (euclidDist (nodes2.getD 0 ⟨0, 0, 0⟩)
        (nodes2.getD 1 ⟨0, 0, 0⟩) * 0.2) 99 ∧
      0 ≤ v ∧ v ≤ 99) :=
  calculateDistanceMatrix_spec nodes2 0 1 (by simp [nodes2]) (by simp [nodes2])

lemma tryPlace_valid (r : ℕ → ℝ) (nodes : List Node) :
    ∀ a k x y k2, tryPlace r nodes k a = some (x, y, k2) →
      isValidNodePosition nodes x y 38 := by
  intro a
  induction a with
  | zero =>
    intro k x y k2 h
    simp [tryPlace] at h
  | succ a ih =>
    intro k x y k2 h
    simp only [tryPlace] at h
    split_ifs at h with hv
    · simp only [Option.some.injEq, Prod.mk.injEq] at h
      obtain ⟨hx, hy, _⟩ := h
      subst hx
      subst hy
      exact hv
    · exact ih (k + 2) x y k2 h

open Classical in
lemma tryPlace_succ (r : ℕ → ℝ) (nodes : List Node) (k a : ℕ) :
    tryPlace r nodes k (a + 1) =
      (if isValidNodePosition nodes (r k * (800 - 2 * 50) + 50)
          (r (k + 1) * (600 - 2 * 50) + 50) 38 then
        some (r k * (800 - 2 * 50) + 50, r (k + 1) * (600 - 2 * 50) + 50,
          k + 2)
      else tryPlace r nodes (k + 2) a) := by
  rw [tryPlace]

lemma placeNodes_pairwise (r : ℕ → ℝ) :
    ∀ remaining k i nodes,
      nodes.Pairwise (fun a b => 38 ≤ euclidDist a b) →
      (placeNodes r k i remaining nodes).Pairwise
        (fun a b => 38 ≤ euclidDist a b) := by
  intro remaining
  induction remaining with
  | zero =>
    intro k i nodes h
    simpa [placeNodes] using h
  | succ rem ih =>
    intro k i nodes h
    rcases htry : tryPlace r nodes k 100 with _ | ⟨x, y, k2⟩
    · simp only [placeNodes, htry]
      exact h
    · simp only [placeNodes, htry]
      apply ih
      rw [List.pairwise_append]
      refine ⟨h, List.pairwise_singleton _ _, ?_⟩
      intro a ha b hb
      simp only [List.mem_singleton] at hb
      subst hb
      have hv := tryPlace_valid r nodes 100 k x y k2 htry
      have hd := hv a ha
      rw [not_lt] at hd
      rw [euclidDist_comm]
      exact hd

/-- C7: every point set produced by `generateRandomGraph` (for all values of
the random draws) is pairwise separated by at least `minSeparation = 38`
(this holds even on the truncated, degenerate-placement path, since every
accepted point was validated against all earlier ones); and a candidate is
accepted by the placement loop only if its Euclidean distance to every
already-accepted point is at least 38. -/
theorem generateRandomGraph_min_separation :
    (∀ r : ℕ → ℝ, (generateRandomGraph r).Pairwise
      (fun a b => 38 ≤ euclidDist a b)) ∧
    (∀ (r : ℕ → ℝ) (nodes : List Node) (k a : ℕ) (x y : ℝ) (k2 : ℕ),
      tryPlace r nodes k a = some (x, y, k2) →
      ∀ node ∈ nodes, 38 ≤ Real.sqrt ((x - node.x) * (x - node.x) +
        (y - node.y) * (y - node.y))) := by
  constructor
  · intro r
    unfold generateRandomGraph
    exact placeNodes_pairwise r _ _ _ [] List.Pairwise.nil
  · intro r nodes k a x y k2 h node hmem
    exact not_lt.mp (tryPlace_valid r nodes a k x y k2 h node hmem)

theorem generateRandomGraph_min_separation_witness :
    tryPlace (fun _ => 1 / 2) [⟨50, 50, 0⟩] 0 100 = some (400, 300, 2) ∧
    (∀ node ∈ [(⟨50, 50, 0⟩ : Node)],
      38 ≤ Real.sqrt (((400 : ℝ) - node.x) * (400 - node.x) +
        (300 - node.y) * (300 - node.y))) := by
  have hvalid : isValidNodePosition [⟨50, 50, 0⟩]
      ((fun _ : ℕ => (1 : ℝ) / 2) 0 * (800 - 2 * 50) + 50)
      ((fun _ : ℕ => (1 : ℝ) / 2) (0 + 1) * (600 - 2 * 50) + 50) 38 := by
    intro node hmem
    simp only [List.mem_singleton] at hmem
    subst hmem
    rw [not_lt]
    have harg : ((fun _ : ℕ => (1 : ℝ) / 2) 0 * (800 - 2 * 50) + 50 -
        (Node.mk 50 50 0).x) * ((fun _ : ℕ => (1 : ℝ) / 2) 0 * (800 - 2 * 50) +
          50 - (Node.mk 50 50 0).x) +
        ((fun _ : ℕ => (1 : ℝ) / 2) (0 + 1) * (600 - 2 * 50) + 50 -
          (Node.mk 50 50 0).y) * ((fun _ : ℕ => (1 : ℝ) / 2) (0 + 1) *
            (600 - 2 * 50) + 50 - (Node.mk 50 50 0).y) = 185000 := by
      norm_num
    rw [harg]
    have h38 : (38 : ℝ) = Real.sqrt (38 ^ 2) := (Real.sqrt_sq (by norm_num)).symm
    rw [h38]
    apply Real.sqrt_le_sqrt
    norm_num
  have htry : tryPlace (fun _ => 1 / 2) [⟨50, 50, 0⟩] 0 100 =
      some (400, 300, 2) := by
    rw [show (100 : ℕ) = 99 + 1 from rfl, tryPlace_succ]
    rw [if_pos hvalid]
    norm_num
  refine ⟨htry, ?_⟩
  exact generateRandomGraph_min_separation.2 (fun _ => 1 / 2)
    [(⟨50, 50, 0⟩ : Node)] 0 100 400 300 2 htry

lemma placeNodes_length_mono (r : ℕ → ℝ) :
    ∀ remaining k i nodes,
      nodes.length ≤ (placeNodes r k i remaining nodes).length := by
  intro remaining
  induction remaining with
  | zero =>
    intro k i nodes
    simp [placeNodes]
  | succ rem ih =>
    intro k i nodes
    rcases htry : tryPlace r nodes k 100 with _ | ⟨x, y, k2⟩
    · simp [placeNodes, htry]
    · simp only [placeNodes, htry]
      calc nodes.length ≤ (nodes ++ [(⟨x, y, i⟩ : Node)]).length := by simp
        _ ≤ _ := ih k2 (i + 1) (nodes ++ [(⟨x, y, i⟩ : Node)])

/-- C10 (implicit): for every value of the random draws (each in `[0, 1)`,
the contract of `Math.random`), `generateRandomGraph` produces a non-empty
point set: the intended node count is at least `3 ≥ 1`, and the first
candidate is always accepted because the validity check is vacuous over the
empty node list, so truncation can never reach zero points and the `n = 0`
input to the tour builder is unreachable through the generate path. -/
theorem generateRandomGraph_nonempty (r : ℕ → ℝ)
    (hr : ∀ m, 0 ≤ r m ∧ r m < 1) :
    1 ≤ (generateRandomGraph r).length := by
  unfold generateRandomGraph
  have hfloor : (0 : ℤ) ≤ ⌊r 0 * 7⌋ := by
    apply Int.floor_nonneg.mpr
    have := (hr 0).1
    positivity
  obtain ⟨m, hm⟩ : ∃ m, (⌊r 0 * 7⌋ + 3).toNat = m + 1 :=
    ⟨(⌊r 0 * 7⌋ + 3).toNat - 1, by omega⟩
  rw [hm]
  have hvalid : isValidNodePosition [] (r 1 * (800 - 2 * 50) + 50)
      (r (1 + 1) * (600 - 2 * 50) + 50) 38 := by
    intro node hmem
    exact absurd hmem (List.not_mem_nil _)
  have htry : tryPlace r [] 1 100 =
      some (r 1 * (800 - 2 * 50) + 50, r (1 + 1) * (600 - 2 * 50) + 50,
        1 + 2) := by
    rw [show (100 : ℕ) = 99 + 1 from rfl, tryPlace_succ]
    rw [if_pos hvalid]
  simp only [placeNodes, htry]
  calc 1 = (([] : List Node) ++ [(⟨r 1 * (800 - 2 * 50) + 50,
      r (1 + 1) * (600 - 2 * 50) + 50, 0⟩ : Node)]).length := by simp
    _ ≤ _ := placeNodes_length_mono r m (1 + 2) (0 + 1) _

theorem generateRandomGraph_nonempty_witness :
    1 ≤ (generateRandomGraph (fun _ => 0)).length :=
  generateRandomGraph_nonempty (fun _ => 0)
    (fun _ => ⟨le_refl 0, by norm_num⟩)

end TSP
